import Mathlib

/-!
A verification development for the Dewey query-orchestration and
streaming-citation pipeline (`app/dewey.py`).

The shallow embedding translates:
* the citation stream rewriter of `Dewey.process` (the `re.sub` over the
  accumulated text, lines 176-187), including the marker scanner semantics of
  the Python regex `\[SRC(\d+)\]` and the URL lookup
  `source_urls.get(int(m.group(1)), '#')` (lines 164-167, 182-186);
* the step state machine (`Dewey.step` / `StepYielder`, lines 38-74) with an
  explicit store of step records, so that the aliasing behaviour of the
  shallow `list.copy()` snapshots is modelled faithfully;
* the search-parameter construction of `Dewey.retrieve_articles`
  (lines 87-111).
-/

set_option autoImplicit false

namespace Dewey

/-! ### The citation marker scanner

Python's `re.sub(r'\[SRC(\d+)\]', repl, partial)` scans `partial` left to
right; at each position it matches `[SRC`, then a maximal nonempty run of
digits, then `]`.  `takeDigits` splits off the maximal digit run;
`matchMarker` recognises a complete marker at the head of the text. -/

/-- Split a character list into its maximal leading run of decimal digits and
the remainder (the lookahead used by the regex group `(\d+)`). -/
def takeDigits : List Char → List Char × List Char
  | [] => ([], [])
  | c :: cs =>
    if c.isDigit then
      ((takeDigits cs).1.cons c, (takeDigits cs).2)
    else ([], c :: cs)

/-- Match the citation-marker pattern at the head of the text: the literal
characters of the marker opening, a nonempty digit run, and the closing
bracket.  Returns the digit group and the text after the marker. -/
def matchMarker : List Char → Option (List Char × List Char)
  | a :: b :: c :: d :: rest =>
    if a = '[' ∧ b = 'S' ∧ c = 'R' ∧ d = 'C' then
      match takeDigits rest with
      | (ds, r) =>
        if ds = [] then none
        else
          match r with
          | e :: r2 => if e = ']' then some (ds, r2) else none
          | [] => none
    else none
  | _ => none

/-- The value of a digit string, as computed by Python's int() on the regex
group. -/
def digitsToNat (ds : List Char) : Nat :=
  ds.foldl (fun a c => 10 * a + (c.toNat - 48)) 0

/-- The url lookup `source_urls.get(n, '#')`, where `source_urls` maps the 1-based position of
each retrieved source to its url (dewey.py lines 164-167). -/
def lookupUrl (urls : List String) (n : Nat) : String :=
  if n = 0 then "#"
  else
    match urls.get? (n - 1) with
    | some u => u
    | none => "#"

/-- The replacement text produced by the rewriting lambda in dewey.py line
184: the rendered citation with the original digit group and the
resolved url. -/
def renderCitation (urls : List String) (ds : List Char) : List Char :=
  '[' :: '[' :: (ds ++ (']' :: ']' :: '(' :: ((lookupUrl urls (digitsToNat ds)).data ++ [')'])))

/-- The raw text of a complete citation marker with digit group `ds`. -/
def markerOf (ds : List Char) : List Char :=
  '[' :: 'S' :: 'R' :: 'C' :: (ds ++ [']'])

/-- One pass of the regex substitution, written with explicit fuel so that the
recursion is structural (the fuel is always at least the length of the
text, and each step consumes at least one character). -/
def rewriteAux (urls : List String) : Nat → List Char → List Char
  | 0, l => l
  | Nat.succ fuel, l =>
    match matchMarker l with
    | some (ds, rest) => renderCitation urls ds ++ rewriteAux urls fuel rest
    | none =>
      match l with
      | [] => []
      | c :: cs => c :: rewriteAux urls fuel cs

/-- The full citation substitution over a character list: every complete
marker is replaced by its rendered citation, scanning left to right
(`re.sub` in dewey.py lines 182-186). -/
def rewriteChars (urls : List String) (l : List Char) : List Char :=
  rewriteAux urls l.length l

/-- The citation substitution on strings, as applied to the accumulated
generation text per fragment. -/
def rewriteString (urls : List String) (s : String) : String :=
  String.mk (rewriteChars urls s.data)

/-! ### The per-fragment emission loop of `Dewey.process`

Lines 176-187: `partial` starts empty; each truthy (nonempty) delta is
appended to it and the fully rewritten accumulation is emitted. -/

/-- The list of rewritten texts emitted by the generation loop, starting from
accumulated raw text `acc`. -/
def emitAux (urls : List String) (acc : String) : List String → List String
  | [] => []
  | d :: ds =>
    if d = "" then emitAux urls acc ds
    else rewriteString urls (acc ++ d) :: emitAux urls (acc ++ d) ds

/-- All rewritten texts emitted by `Dewey.process` for a given stream of
generation deltas, in order. -/
def emissions (urls : List String) (deltas : List String) : List String :=
  emitAux urls "" deltas

/-- The successive raw accumulations held in `partial`, one per emission. -/
def accumAux (acc : String) : List String → List String
  | [] => []
  | d :: ds =>
    if d = "" then accumAux acc ds
    else (acc ++ d) :: accumAux (acc ++ d) ds

/-- The raw accumulated text underlying each emission. -/
def accumTexts (deltas : List String) : List String :=
  accumAux "" deltas

/-- Concatenation of a fragment sequence. -/
def joinFrags : List String → String
  | [] => ""
  | d :: ds => d ++ joinFrags ds

/-- Number of positions at which `pat` occurs in `l`. -/
def countOcc (pat l : List Char) : Nat :=
  (List.range (l.length + 1)).countP (fun i => List.isPrefixOf pat (l.drop i))

/-! ### Basic facts about the scanner -/

theorem takeDigits_sound :
    ∀ l ds r, takeDigits l = (ds, r) →
      l = ds ++ r ∧ (∀ c ∈ ds, c.isDigit = true) ∧
        (r = [] ∨ ∃ c r2, r = c :: r2 ∧ c.isDigit = false) := by
  intro l
  induction l with
  | nil =>
    intro ds r h
    simp only [takeDigits] at h
    obtain ⟨rfl, rfl⟩ := Prod.mk.injEq _ _ _ _ ▸ h
    simp
  | cons c cs ih =>
    intro ds r h
    simp only [takeDigits] at h
    by_cases hc : c.isDigit
    · simp only [hc, if_pos] at h
      obtain ⟨hds, hr⟩ := Prod.mk.injEq _ _ _ _ ▸ h
      obtain ⟨l1, l2, hl⟩ : ∃ l1 l2, takeDigits cs = (l1, l2) := ⟨_, _, rfl⟩
      rw [hl] at hds hr
      simp only [List.cons] at hds
      obtain ⟨he, hdig, hrest⟩ := ih l1 l2 hl
      subst hds; subst hr; subst he
      refine ⟨by simp, ?_, hrest⟩
      intro x hx
      rcases List.mem_cons.mp hx with h1 | h2
      · subst h1; exact hc
      · exact hdig x h2
    · simp only [hc, if_neg, if_false] at h
      obtain ⟨rfl, rfl⟩ := Prod.mk.injEq _ _ _ _ ▸ h
      exact ⟨rfl, by simp, Or.inr ⟨c, cs, rfl, by simpa using hc⟩⟩

theorem takeDigits_spec (ds : List Char) (c : Char) (r : List Char)
    (hds : ∀ x ∈ ds, x.isDigit = true) (hc : c.isDigit = false) :
    takeDigits (ds ++ c :: r) = (ds, c :: r) := by
  induction ds with
  | nil => simp [takeDigits, hc]
  | cons d ds ih =>
    have hd : d.isDigit = true := hds d (List.mem_cons_self d ds)
    have : takeDigits (ds ++ c :: r) = (ds, c :: r) :=
      ih fun x hx => hds x (List.mem_cons_of_mem d hx)
    simp [takeDigits, hd, this]

theorem markerOf_append (ds r : List Char) :
    markerOf ds ++ r = '[' :: 'S' :: 'R' :: 'C' :: (ds ++ ']' :: r) := by
  simp [markerOf]

/-- Characterisation of the marker matcher: it succeeds exactly on a complete
marker at the head of the text, and the digit group is the maximal digit
run. -/
theorem matchMarker_iff (l ds r : List Char) :
    matchMarker l = some (ds, r) ↔
      ds ≠ [] ∧ (∀ c ∈ ds, c.isDigit = true) ∧ l = markerOf ds ++ r := by
  constructor
  · intro h
    match l with
    | [] => simp [matchMarker] at h
    | [a] => simp [matchMarker] at h
    | [a, b] => simp [matchMarker] at h
    | [a, b, c] => simp [matchMarker] at h
    | a :: b :: c :: d :: rest =>
      simp only [matchMarker] at h
      by_cases habcd : a = '[' ∧ b = 'S' ∧ c = 'R' ∧ d = 'C'
      · obtain ⟨rfl, rfl, rfl, rfl⟩ := habcd
        rw [if_pos ⟨rfl, rfl, rfl, rfl⟩] at h
        obtain ⟨ds0, r0, h0⟩ : ∃ x y, takeDigits rest = (x, y) := ⟨_, _, rfl⟩
        rw [h0] at h
        by_cases hds0 : ds0 = []
        · simp [hds0] at h
        · rw [if_neg hds0] at h
          match r0, h0 with
          | [], h0 => simp at h
          | e :: r2, h0 =>
            dsimp only at h
            by_cases he : e = ']'
            · subst he
              rw [if_pos rfl] at h
              simp only [Option.some.injEq, Prod.mk.injEq] at h
              obtain ⟨h1, h2⟩ := h
              subst h1
              subst h2
              obtain ⟨he2, hdig, _⟩ := takeDigits_sound rest _ _ h0
              exact ⟨hds0, hdig, by rw [markerOf_append, he2]⟩
            · rw [if_neg he] at h
              simp at h
      · rw [if_neg habcd] at h
        simp at h
  · rintro ⟨hne, hdig, rfl⟩
    rw [markerOf_append]
    simp only [matchMarker, if_pos (⟨rfl, rfl, rfl, rfl⟩ : _ ∧ _ ∧ _ ∧ _)]
    rw [takeDigits_spec ds ']' r hdig (by decide)]
    simp [hne]

theorem matchMarker_head (l ds r : List Char) (h : matchMarker l = some (ds, r)) :
    ∃ t, l = '[' :: t := by
  obtain ⟨_, _, hl⟩ := (matchMarker_iff l ds r).mp h
  exact ⟨_, by rw [hl, markerOf_append]⟩

theorem matchMarker_none_of_head (c : Char) (cs : List Char) (hc : c ≠ '[') :
    matchMarker (c :: cs) = none := by
  cases h : matchMarker (c :: cs) with
  | none => rfl
  | some p =>
    obtain ⟨t, ht⟩ := matchMarker_head (c :: cs) p.1 p.2 (by rw [h])
    exact absurd (List.cons.injEq _ _ _ _ ▸ ht).1 hc

theorem matchMarker_length (l ds r : List Char) (h : matchMarker l = some (ds, r)) :
    r.length + 6 ≤ l.length ∧ l.length = ds.length + r.length + 5 := by
  obtain ⟨hne, _, hl⟩ := (matchMarker_iff l ds r).mp h
  have h1 : 1 ≤ ds.length := by
    cases ds with
    | nil => exact absurd rfl hne
    | cons x xs => simp
  rw [hl, markerOf_append]
  simp only [List.length_cons, List.length_append, List.length_cons]
  omega

/-! ### The canonical equations of the rewriter -/

theorem rewriteAux_nil (urls : List String) (fuel : Nat) :
    rewriteAux urls fuel [] = [] := by
  cases fuel with
  | zero => rfl
  | succ n => simp [rewriteAux, matchMarker]

theorem rewriteAux_fuel (urls : List String) :
    ∀ f1 f2 l, l.length ≤ f1 → l.length ≤ f2 →
      rewriteAux urls f1 l = rewriteAux urls f2 l := by
  intro f1
  induction f1 with
  | zero =>
    intro f2 l h1 _
    have : l = [] := List.length_eq_zero.mp (Nat.le_zero.mp h1)
    subst this
    rw [rewriteAux_nil, rewriteAux_nil]
  | succ n ih =>
    intro f2 l h1 h2
    cases f2 with
    | zero =>
      have : l = [] := List.length_eq_zero.mp (Nat.le_zero.mp h2)
      subst this
      rw [rewriteAux_nil, rewriteAux_nil]
    | succ m =>
      simp only [rewriteAux]
      cases hm : matchMarker l with
      | some p =>
        obtain ⟨ds, rest⟩ := p
        have hlen := (matchMarker_length l ds rest hm).1
        dsimp only
        rw [ih m rest (by omega) (by omega)]
      | none =>
        cases l with
        | nil => rfl
        | cons c cs =>
          simp only [List.length_cons] at h1 h2
          dsimp only
          rw [ih m cs (by omega) (by omega)]

theorem rewriteChars_nil (urls : List String) : rewriteChars urls [] = [] := rfl

theorem rewriteChars_match (urls : List String) (l ds rest : List Char)
    (h : matchMarker l = some (ds, rest)) :
    rewriteChars urls l = renderCitation urls ds ++ rewriteChars urls rest := by
  obtain ⟨hlen6, _⟩ := matchMarker_length l ds rest h
  unfold rewriteChars
  cases hl : l.length with
  | zero =>
    exact absurd hl (by omega)
  | succ n =>
    simp only [rewriteAux, h]
    rw [rewriteAux_fuel urls n rest.length rest (by omega) (by omega)]

theorem rewriteChars_cons_none (urls : List String) (c : Char) (cs : List Char)
    (h : matchMarker (c :: cs) = none) :
    rewriteChars urls (c :: cs) = c :: rewriteChars urls cs := by
  unfold rewriteChars
  simp only [List.length_cons, rewriteAux, h]

theorem matchMarker_mem_rbracket (l ds r : List Char)
    (h : matchMarker l = some (ds, r)) : ']' ∈ l := by
  obtain ⟨_, _, hl⟩ := (matchMarker_iff l ds r).mp h
  rw [hl, markerOf_append]
  simp

/-- Text containing no closing bracket contains no complete marker and passes
through the substitution unchanged. -/
theorem rewriteChars_of_not_rbracket (urls : List String) :
    ∀ l, ']' ∉ l → rewriteChars urls l = l := by
  intro l
  induction l with
  | nil => intro _; exact rewriteChars_nil urls
  | cons c cs ih =>
    intro h
    have hm : matchMarker (c :: cs) = none := by
      cases hmm : matchMarker (c :: cs) with
      | none => rfl
      | some p => exact absurd (matchMarker_mem_rbracket _ p.1 p.2 (by rw [hmm])) h
    rw [rewriteChars_cons_none urls c cs hm, ih (fun hc => h (List.mem_cons_of_mem c hc))]

theorem matchMarker_append_some (a t ds r : List Char)
    (h : matchMarker a = some (ds, r)) :
    matchMarker (a ++ t) = some (ds, r ++ t) := by
  obtain ⟨hne, hdig, hl⟩ := (matchMarker_iff a ds r).mp h
  subst hl
  exact (matchMarker_iff _ ds (r ++ t)).mpr ⟨hne, hdig, by rw [List.append_assoc]⟩

theorem markerOf_eq_concat (ds : List Char) :
    markerOf ds = ('[' :: 'S' :: 'R' :: 'C' :: ds) ++ [']'] := by
  simp [markerOf]

/-- If the head of `a` matches no marker and the appended text has no closing
bracket, the head of `a ++ t` matches no marker either. -/
theorem matchMarker_append_none (a t : List Char) (ha : matchMarker a = none)
    (ht : ']' ∉ t) : matchMarker (a ++ t) = none := by
  cases hm : matchMarker (a ++ t) with
  | none => rfl
  | some p =>
    obtain ⟨ds, r⟩ := p
    obtain ⟨hne, hdig, heq⟩ := (matchMarker_iff _ ds r).mp hm
    rcases List.append_eq_append_iff.mp heq.symm with ⟨w, hw1, _⟩ | ⟨w, hw1, hw2⟩
    · have := (matchMarker_iff a ds w).mpr ⟨hne, hdig, hw1⟩
      rw [ha] at this
      exact absurd this (by simp)
    · rcases List.eq_nil_or_concat w with rfl | ⟨w2, y, hwc⟩
      · rw [List.append_nil] at hw1
        have : matchMarker a = some (ds, []) :=
          (matchMarker_iff a ds []).mpr
            ⟨hne, hdig, by rw [List.append_nil]; exact hw1.symm⟩
        rw [ha] at this
        exact absurd this (by simp)
      · rw [List.concat_eq_append] at hwc
        subst hwc
        have hm2 : ('[' :: 'S' :: 'R' :: 'C' :: ds) ++ [']'] = (a ++ w2) ++ [y] := by
          rw [← markerOf_eq_concat, hw1, List.append_assoc]
        have hy : ([']'] : List Char) = [y] := (List.append_inj' hm2 (by simp)).2
        have : ']' ∈ t := by
          rw [hw2]
          simp only [List.mem_append]
          exact Or.inl (by simp [← List.cons.injEq _ _ _ _ ▸ hy] )
        exact absurd this ht

/-- If the head of `a` matches no marker and `a` is nonempty, appending text
that begins with an opening bracket cannot create a match at the head
(a match reaching into the appended part would need a second opening
bracket inside the marker). -/
theorem matchMarker_append_none_of_lbracket (x : Char) (a2 t : List Char)
    (ha : matchMarker (x :: a2) = none) :
    matchMarker ((x :: a2) ++ ('[' :: t)) = none := by
  cases hm : matchMarker ((x :: a2) ++ ('[' :: t)) with
  | none => rfl
  | some p =>
    obtain ⟨ds, r⟩ := p
    obtain ⟨hne, hdig, heq⟩ := (matchMarker_iff _ ds r).mp hm
    rcases List.append_eq_append_iff.mp heq.symm with ⟨w, hw1, _⟩ | ⟨w, hw1, hw2⟩
    · have := (matchMarker_iff _ ds w).mpr ⟨hne, hdig, hw1⟩
      rw [ha] at this
      exact absurd this (by simp)
    · rcases w with _ | ⟨w0, ws⟩
      · rw [List.append_nil] at hw1
        have : matchMarker (x :: a2) = some (ds, []) :=
          (matchMarker_iff _ ds []).mpr
            ⟨hne, hdig, by rw [List.append_nil]; exact hw1.symm⟩
        rw [ha] at this
        exact absurd this (by simp)
      · have hw0 : w0 = '[' := by
          have := List.cons.injEq _ _ _ _ ▸ hw2
          exact this.1.symm
        subst hw0
        have hmem : '[' ∈ 'S' :: 'R' :: 'C' :: (ds ++ [']']) := by
          rw [markerOf] at hw1
          have htail : 'S' :: 'R' :: 'C' :: (ds ++ [']']) = a2 ++ '[' :: ws :=
            (List.cons.injEq _ _ _ _ ▸ hw1).2
          rw [htail]
          simp
        simp only [List.mem_cons, List.mem_append, List.mem_singleton] at hmem
        rcases hmem with h | h | h | h | h
        all_goals first
          | exact absurd h (by decide)
          | exact absurd (hdig '[' h) (by decide)

/-- Appending text with no closing bracket (in particular an incomplete
trailing citation marker) leaves the rewriting of the existing text
unchanged and passes the appended text through literally. -/
theorem rewriteChars_append_of_not_rbracket (urls : List String) :
    ∀ n a t, a.length ≤ n → ']' ∉ t →
      rewriteChars urls (a ++ t) = rewriteChars urls a ++ t := by
  intro n
  induction n with
  | zero =>
    intro a t h1 ht
    have : a = [] := List.length_eq_zero.mp (Nat.le_zero.mp h1)
    subst this
    simp only [rewriteChars_nil, List.nil_append]
    exact rewriteChars_of_not_rbracket urls t ht
  | succ n ih =>
    intro a t h1 ht
    cases hm : matchMarker a with
    | some p =>
      obtain ⟨ds, r⟩ := p
      have hlen := (matchMarker_length a ds r hm).1
      have hm2 := matchMarker_append_some a t ds r hm
      rw [rewriteChars_match urls _ ds _ hm2, rewriteChars_match urls _ ds _ hm,
        ih r t (by omega) ht, List.append_assoc]
    | none =>
      cases a with
      | nil =>
        simp only [rewriteChars_nil, List.nil_append]
        exact rewriteChars_of_not_rbracket urls t ht
      | cons c cs =>
        have hm2 : matchMarker ((c :: cs) ++ t) = none :=
          matchMarker_append_none (c :: cs) t hm ht
        rw [List.cons_append] at hm2 ⊢
        rw [rewriteChars_cons_none urls c _ hm2, rewriteChars_cons_none urls c cs hm]
        simp only [List.length_cons] at h1
        rw [ih cs t (by omega) ht, List.cons_append]

/-- Appending a complete marker to arbitrary text: the existing text rewrites
as before and the marker is rendered in place at the end. -/
theorem rewriteChars_append_marker (urls : List String) :
    ∀ n a ds, a.length ≤ n → ds ≠ [] → (∀ c ∈ ds, c.isDigit = true) →
      rewriteChars urls (a ++ markerOf ds) =
        rewriteChars urls a ++ renderCitation urls ds := by
  intro n
  induction n with
  | zero =>
    intro a ds h1 hne hdig
    have : a = [] := List.length_eq_zero.mp (Nat.le_zero.mp h1)
    subst this
    have hmk : matchMarker (markerOf ds) = some (ds, []) :=
      (matchMarker_iff _ ds []).mpr ⟨hne, hdig, by rw [List.append_nil]⟩
    simp only [rewriteChars_nil, List.nil_append]
    rw [rewriteChars_match urls _ ds _ hmk, rewriteChars_nil, List.append_nil]
  | succ n ih =>
    intro a ds h1 hne hdig
    cases hm : matchMarker a with
    | some p =>
      obtain ⟨ds', r⟩ := p
      have hlen := (matchMarker_length a ds' r hm).1
      have hm2 := matchMarker_append_some a (markerOf ds) ds' r hm
      rw [rewriteChars_match urls _ ds' _ hm2, rewriteChars_match urls _ ds' _ hm,
        ih r ds (by omega) hne hdig, List.append_assoc]
    | none =>
      cases a with
      | nil =>
        have hmk : matchMarker (markerOf ds) = some (ds, []) :=
          (matchMarker_iff _ ds []).mpr ⟨hne, hdig, by rw [List.append_nil]⟩
        simp only [rewriteChars_nil, List.nil_append]
        rw [rewriteChars_match urls _ ds _ hmk, rewriteChars_nil, List.append_nil]
      | cons c cs =>
        have hm2 : matchMarker ((c :: cs) ++ markerOf ds) = none := by
          rw [markerOf]
          exact matchMarker_append_none_of_lbracket c cs _ hm
        rw [List.cons_append] at hm2 ⊢
        rw [rewriteChars_cons_none urls c _ hm2, rewriteChars_cons_none urls c cs hm]
        simp only [List.length_cons] at h1
        rw [ih cs ds (by omega) hne hdig, List.cons_append]

/-! ### Occurrence (infix) decomposition helpers -/

theorem occ_nil_eq (pat : List Char) (h : pat <:+: ([] : List Char)) : pat = [] := by
  obtain ⟨u, v, huv⟩ := h
  rcases List.append_eq_nil.mp huv with ⟨h1, h2⟩
  exact (List.append_eq_nil.mp h1).2

theorem occ_of_isPre (pat l : List Char) (h : pat <+: l) : pat <:+: l := by
  obtain ⟨w, hw⟩ := h
  exact ⟨[], w, by simpa using hw⟩

theorem occ_append_right (x y pat : List Char) (h : pat <:+: y) : pat <:+: x ++ y := by
  obtain ⟨u, v, huv⟩ := h
  exact ⟨x ++ u, v, by simp [← huv]⟩

theorem occ_cons_of (c : Char) (pat l : List Char) (h : pat <:+: l) :
    pat <:+: c :: l := by
  obtain ⟨u, v, huv⟩ := h
  exact ⟨c :: u, v, by simp [← huv]⟩

theorem occ_cons_cases (pat : List Char) (c : Char) (l : List Char)
    (h : pat <:+: (c :: l)) : pat <+: (c :: l) ∨ pat <:+: l := by
  obtain ⟨u, v, huv⟩ := h
  cases u with
  | nil => exact Or.inl ⟨v, by simpa using huv⟩
  | cons u0 us =>
    rw [List.cons_append] at huv
    exact Or.inr ⟨us, v, (List.cons.injEq _ _ _ _ ▸ huv).2⟩

/-- An occurrence of `pat` inside `x ++ y` lies in `x`, lies in `y`, or spans
the boundary with a nonempty suffix piece in `x` and a nonempty prefix
piece in `y`. -/
theorem occ_append_cases (pat x y : List Char) (h : pat <:+: (x ++ y)) :
    pat <:+: x ∨ pat <:+: y ∨
      ∃ s t, s ≠ [] ∧ t ≠ [] ∧ pat = s ++ t ∧ s <:+ x ∧ t <+: y := by
  obtain ⟨u, v, huv⟩ := h
  rcases List.append_eq_append_iff.mp huv with ⟨w, hw1, _⟩ | ⟨w, hw1, hw2⟩
  · exact Or.inl ⟨u, w, hw1.symm⟩
  · rcases List.append_eq_append_iff.mp hw1 with ⟨z, hz1, hz2⟩ | ⟨z, hz1, hz2⟩
    · by_cases hz : z = []
      · subst hz
        rw [List.nil_append] at hz2
        refine Or.inr (Or.inl ⟨[], v, ?_⟩)
        simp [hz2, hw2]
      · by_cases hw : w = []
        · subst hw
          rw [List.append_nil] at hz2
          refine Or.inl ⟨u, [], ?_⟩
          simp [hz2, hz1]
        · exact Or.inr (Or.inr ⟨z, w, hz, hw, hz2, ⟨u, hz1.symm⟩, ⟨v, hw2.symm⟩⟩)
    · refine Or.inr (Or.inl ⟨z, v, ?_⟩)
      rw [hw2, hz2]

/-! ### Digit-run and marker shape facts -/

theorem digits_append_rbracket_inj :
    ∀ (ds ds' t t' : List Char), (∀ c ∈ ds, c.isDigit = true) →
      (∀ c ∈ ds', c.isDigit = true) →
      ds ++ ']' :: t = ds' ++ ']' :: t' → ds = ds' ∧ t = t' := by
  intro ds
  induction ds with
  | nil =>
    intro ds' t t' _ hd' h
    cases ds' with
    | nil => simpa using h
    | cons d' ds2 =>
      simp only [List.nil_append, List.cons_append] at h
      have h1 : (']' : Char) = d' := (List.cons.injEq _ _ _ _ ▸ h).1
      have hd := hd' d' (List.mem_cons_self _ _)
      rw [← h1] at hd
      exact absurd hd (by decide)
  | cons d ds2 ih =>
    intro ds' t t' hd hd' h
    cases ds' with
    | nil =>
      simp only [List.nil_append, List.cons_append] at h
      have h1 : d = ']' := (List.cons.injEq _ _ _ _ ▸ h).1
      have hdd := hd d (List.mem_cons_self _ _)
      rw [h1] at hdd
      exact absurd hdd (by decide)
    | cons d' ds2' =>
      simp only [List.cons_append] at h
      obtain ⟨h1, h2⟩ := List.cons.injEq _ _ _ _ ▸ h
      obtain ⟨h3, h4⟩ := ih ds2' t t'
        (fun c hc => hd c (List.mem_cons_of_mem _ hc))
        (fun c hc => hd' c (List.mem_cons_of_mem _ hc)) h2
      exact ⟨by rw [h1, h3], h4⟩

theorem lbracket_not_mem_marker_tail (ds : List Char)
    (hd : ∀ c ∈ ds, c.isDigit = true) :
    '[' ∉ 'S' :: 'R' :: 'C' :: (ds ++ [']']) := by
  intro h
  simp only [List.mem_cons, List.mem_append, List.mem_singleton] at h
  rcases h with h | h | h | h | h
  · exact absurd h (by decide)
  · exact absurd h (by decide)
  · exact absurd h (by decide)
  · exact absurd (hd '[' h) (by decide)
  · exact absurd h (by decide)

/-- Whenever a complete marker occurs anywhere in the text, its rendered
citation occurs in the rewritten text. -/
theorem renderCitation_occ_rewrite (urls : List String) :
    ∀ n a ds, a.length ≤ n → ds ≠ [] → (∀ c ∈ ds, c.isDigit = true) →
      markerOf ds <:+: a → renderCitation urls ds <:+: rewriteChars urls a := by
  intro n
  induction n with
  | zero =>
    intro a ds h1 hne _ hocc
    have ha : a = [] := List.length_eq_zero.mp (Nat.le_zero.mp h1)
    subst ha
    have := occ_nil_eq _ hocc
    simp [markerOf] at this
  | succ n ih =>
    intro a ds h1 hne hdig hocc
    cases hm : matchMarker a with
    | some p =>
      obtain ⟨ds', r⟩ := p
      obtain ⟨hne2, hdig2, ha⟩ := (matchMarker_iff a ds' r).mp hm
      have hlen := (matchMarker_length a ds' r hm).1
      rw [rewriteChars_match urls a ds' r hm]
      rw [ha] at hocc
      rcases occ_append_cases _ _ _ hocc with h | h | ⟨s, t, hs, ht, hst, hsx, hty⟩
      · obtain ⟨u, v, huv⟩ := h
        cases u with
        | nil =>
          rw [List.nil_append] at huv
          rw [markerOf_append, markerOf] at huv
          have hx : ds ++ ']' :: v = ds' ++ ']' :: ([] : List Char) := by
            have := (List.cons.injEq _ _ _ _ ▸ huv).2
            have := (List.cons.injEq _ _ _ _ ▸ this).2
            have := (List.cons.injEq _ _ _ _ ▸ this).2
            have := (List.cons.injEq _ _ _ _ ▸ this).2
            exact this
          have hds : ds = ds' := (digits_append_rbracket_inj ds ds' v [] hdig hdig2 hx).1
          exact ⟨[], rewriteChars urls r, by rw [List.nil_append, hds]⟩
        | cons u0 us =>
          rw [List.cons_append, List.cons_append] at huv
          have : '[' ∈ 'S' :: 'R' :: 'C' :: (ds' ++ [']']) := by
            have htl : 'S' :: 'R' :: 'C' :: (ds' ++ [']']) = (us ++ markerOf ds) ++ v := by
              rw [markerOf] at huv
              exact ((List.cons.injEq _ _ _ _ ▸ huv).2).symm
            have hmem2 : '[' ∈ markerOf ds := by rw [markerOf]; simp
            rw [htl]
            simp only [List.mem_append]
            exact Or.inl (Or.inr hmem2)
          exact absurd this (lbracket_not_mem_marker_tail ds' hdig2)
      · have := ih r ds (by omega) hne hdig h
        exact occ_append_right _ _ _ this
      · obtain ⟨w, hw⟩ := hsx
        cases w with
        | nil =>
          rw [List.nil_append] at hw
          subst hw
          rw [markerOf_append, markerOf] at hst
          have hx := (List.cons.injEq _ _ _ _ ▸ hst).2
          have hx := (List.cons.injEq _ _ _ _ ▸ hx).2
          have hx := (List.cons.injEq _ _ _ _ ▸ hx).2
          have hx := (List.cons.injEq _ _ _ _ ▸ hx).2
          exact absurd (digits_append_rbracket_inj ds ds' [] t hdig hdig2 hx).2.symm ht
        | cons w0 ws =>
          rw [List.cons_append] at hw
          have : '[' ∈ 'S' :: 'R' :: 'C' :: (ds' ++ [']']) := by
            have htl : 'S' :: 'R' :: 'C' :: (ds' ++ [']']) = ws ++ s := by
              rw [markerOf] at hw
              exact ((List.cons.injEq _ _ _ _ ▸ hw).2).symm
            have hshead : ∃ s2, s = '[' :: s2 := by
              cases s with
              | nil => exact absurd rfl hs
              | cons s0 s2 =>
                rw [List.cons_append] at hst
                rw [markerOf] at hst
                have hlb : '[' = s0 := (List.cons.injEq _ _ _ _ ▸ hst).1
                exact ⟨s2, by rw [← hlb]⟩
            obtain ⟨s2, hs2⟩ := hshead
            rw [htl, hs2]
            simp
          exact absurd this (lbracket_not_mem_marker_tail ds' hdig2)
    | none =>
      cases a with
      | nil =>
        have := occ_nil_eq _ hocc
        simp [markerOf] at this
      | cons c cs =>
        rw [rewriteChars_cons_none urls c cs hm]
        rcases occ_cons_cases _ _ _ hocc with h | h
        · obtain ⟨w, hw⟩ := h
          have : matchMarker (c :: cs) = some (ds, w) :=
            (matchMarker_iff _ ds w).mpr ⟨hne, hdig, hw.symm⟩
          rw [hm] at this
          exact absurd this (by simp)
        · simp only [List.length_cons] at h1
          exact occ_cons_of c _ _ (ih cs ds (by omega) hne hdig h)

/-! ### The output of the rewriter contains no unrewritten marker -/

theorem lookupUrl_cases (urls : List String) (n : Nat) :
    lookupUrl urls n = "#" ∨ lookupUrl urls n ∈ urls := by
  unfold lookupUrl
  by_cases h0 : n = 0
  · simp [h0]
  · rw [if_neg h0]
    cases hget : urls.get? (n - 1) with
    | none => exact Or.inl rfl
    | some u => exact Or.inr (List.get?_mem hget)

theorem marker_length_ge (ds : List Char) (hne : ds ≠ []) :
    6 ≤ (markerOf ds).length := by
  have : 1 ≤ ds.length := by
    cases ds with
    | nil => exact absurd rfl hne
    | cons x xs => simp
  rw [markerOf]
  simp only [List.length_cons, List.length_append, List.length_singleton]
  omega

theorem lbracket_mem_marker (ds : List Char) : '[' ∈ markerOf ds := by
  rw [markerOf]; simp

theorem rparen_not_mem_marker (ds : List Char)
    (hdig : ∀ c ∈ ds, c.isDigit = true) : ')' ∉ markerOf ds := by
  intro h
  rw [markerOf] at h
  simp only [List.mem_cons, List.mem_append, List.mem_singleton] at h
  rcases h with h | h | h | h | h | h
  · exact absurd h (by decide)
  · exact absurd h (by decide)
  · exact absurd h (by decide)
  · exact absurd h (by decide)
  · exact absurd (hdig ')' h) (by decide)
  · exact absurd h (by decide)

theorem renderCitation_eq_concat (urls : List String) (ds : List Char) :
    renderCitation urls ds =
      ('[' :: '[' :: (ds ++ (']' :: ']' :: '(' ::
        (lookupUrl urls (digitsToNat ds)).data))) ++ [')'] := by
  simp [renderCitation]

/-- A marker (for any nonempty digit group) never occurs inside a rendered
citation, provided it occurs in no source url. -/
theorem marker_not_occ_render (urls : List String) (ds ds' : List Char)
    (hne : ds ≠ []) (hdig : ∀ c ∈ ds, c.isDigit = true)
    (hne2 : ds' ≠ []) (hdig2 : ∀ c ∈ ds', c.isDigit = true)
    (hurl : ∀ u ∈ urls, ¬ markerOf ds <:+: u.data) :
    ¬ markerOf ds <:+: renderCitation urls ds' := by
  intro h
  rw [renderCitation] at h
  rcases occ_cons_cases _ _ _ h with h1 | h1
  · obtain ⟨w, hw⟩ := h1
    rw [markerOf] at hw
    rw [List.cons_append] at hw
    have h2 := (List.cons.injEq _ _ _ _ ▸ hw).2
    rw [List.cons_append] at h2
    exact absurd (List.cons.injEq _ _ _ _ ▸ h2).1 (by decide)
  rcases occ_cons_cases _ _ _ h1 with h2 | h2
  · obtain ⟨w, hw⟩ := h2
    rw [markerOf] at hw
    rw [List.cons_append] at hw
    have h3 := (List.cons.injEq _ _ _ _ ▸ hw).2
    cases ds' with
    | nil => exact absurd rfl hne2
    | cons d' ds2 =>
      rw [List.cons_append, List.cons_append] at h3
      have hSd : 'S' = d' := (List.cons.injEq _ _ _ _ ▸ h3).1
      have := hdig2 d' (List.mem_cons_self _ _)
      rw [← hSd] at this
      exact absurd this (by decide)
  rcases occ_append_cases _ _ _ h2 with h3 | h3 | ⟨s, t, hs, ht, hst, hsx, hty⟩
  · exact absurd (h3.subset (lbracket_mem_marker ds))
      (fun hmem => absurd (hdig2 '[' hmem) (by decide))
  · rcases occ_cons_cases _ _ _ h3 with h4 | h4
    · obtain ⟨w, hw⟩ := h4
      rw [markerOf, List.cons_append] at hw
      exact absurd (List.cons.injEq _ _ _ _ ▸ hw).1 (by decide)
    rcases occ_cons_cases _ _ _ h4 with h5 | h5
    · obtain ⟨w, hw⟩ := h5
      rw [markerOf, List.cons_append] at hw
      exact absurd (List.cons.injEq _ _ _ _ ▸ hw).1 (by decide)
    rcases occ_cons_cases _ _ _ h5 with h6 | h6
    · obtain ⟨w, hw⟩ := h6
      rw [markerOf, List.cons_append] at hw
      exact absurd (List.cons.injEq _ _ _ _ ▸ hw).1 (by decide)
    rcases occ_append_cases _ _ _ h6 with h7 | h7 | ⟨s, t, hs, ht, hst, hsx, hty⟩
    · rcases lookupUrl_cases urls (digitsToNat ds') with hc | hc
      · have hlen := h7.length_le
        rw [hc] at hlen
        have := marker_length_ge ds hne
        have hhash : ("#".data : List Char).length = 1 := by decide
        omega
      · exact absurd h7 (hurl _ hc)
    · have hlen := h7.length_le
      have := marker_length_ge ds hne
      simp only [List.length_singleton] at hlen
      omega
    · obtain ⟨v, hv⟩ := hty
      cases t with
      | nil => exact absurd rfl ht
      | cons t0 ts =>
        rw [List.cons_append] at hv
        have ht0 : t0 = ')' := (List.cons.injEq _ _ _ _ ▸ hv).1
        have : ')' ∈ markerOf ds := by
          rw [hst, ← ht0]
          simp
        exact absurd this (rparen_not_mem_marker ds hdig)
  · cases s with
    | nil => exact absurd rfl hs
    | cons s0 ss =>
      have hs0 : s0 = '[' := by
        rw [markerOf] at hst
        rw [List.cons_append] at hst
        exact ((List.cons.injEq _ _ _ _ ▸ hst).1).symm
      have : '[' ∈ ds' := by
        have := hsx.subset (List.mem_cons_self s0 ss)
        rw [hs0] at this
        exact this
      exact absurd (hdig2 '[' this) (by decide)

/-- A prefix of the rewritten text containing no opening bracket is also a
prefix of the raw text. -/
theorem pre_reflect_rewrite (urls : List String) :
    ∀ w l, (∀ x ∈ w, x ≠ '[') → w <+: rewriteChars urls l → w <+: l := by
  intro w
  induction w with
  | nil => intro l _ _; exact List.nil_prefix
  | cons x w2 ih =>
    intro l hx hp
    cases l with
    | nil =>
      rw [rewriteChars_nil] at hp
      obtain ⟨t, htt⟩ := hp
      exact absurd htt (by simp)
    | cons c cs =>
      cases hm : matchMarker (c :: cs) with
      | some p =>
        obtain ⟨ds, r⟩ := p
        rw [rewriteChars_match urls _ ds r hm] at hp
        rw [renderCitation, List.cons_append] at hp
        rw [List.cons_prefix_cons] at hp
        exact absurd hp.1 (hx x (List.mem_cons_self _ _))
      | none =>
        rw [rewriteChars_cons_none urls c cs hm] at hp
        rw [List.cons_prefix_cons] at hp
        obtain ⟨hxc, hp2⟩ := hp
        rw [List.cons_prefix_cons]
        exact ⟨hxc, ih cs (fun y hy => hx y (List.mem_cons_of_mem _ hy)) hp2⟩

theorem marker_tail_no_lbracket (ds : List Char)
    (hdig : ∀ c ∈ ds, c.isDigit = true) :
    ∀ x ∈ 'S' :: 'R' :: 'C' :: (ds ++ [']']), x ≠ '[' := by
  intro x hx heq
  subst heq
  exact lbracket_not_mem_marker_tail ds hdig hx

/-- If no source url contains the marker, the fully rewritten text never
contains the (unrewritten) marker, whatever the raw text was. -/
theorem marker_not_occ_rewrite (urls : List String) (ds : List Char)
    (hne : ds ≠ []) (hdig : ∀ c ∈ ds, c.isDigit = true)
    (hurl : ∀ u ∈ urls, ¬ markerOf ds <:+: u.data) :
    ∀ n l, l.length ≤ n → ¬ markerOf ds <:+: rewriteChars urls l := by
  intro n
  induction n with
  | zero =>
    intro l h1 hocc
    have hl : l = [] := List.length_eq_zero.mp (Nat.le_zero.mp h1)
    subst hl
    rw [rewriteChars_nil] at hocc
    have := occ_nil_eq _ hocc
    simp [markerOf] at this
  | succ n ih =>
    intro l h1 hocc
    cases hm : matchMarker l with
    | some p =>
      obtain ⟨ds', r⟩ := p
      have hlen := (matchMarker_length l ds' r hm).1
      obtain ⟨hne2, hdig2, _⟩ := (matchMarker_iff l ds' r).mp hm
      rw [rewriteChars_match urls l ds' r hm] at hocc
      rcases occ_append_cases _ _ _ hocc with h | h | ⟨s, t, hs, ht, hst, hsx, hty⟩
      · exact absurd h (marker_not_occ_render urls ds ds' hne hdig hne2 hdig2 hurl)
      · exact ih r (by omega) h
      · obtain ⟨w, hw⟩ := hsx
        rcases List.eq_nil_or_concat s with rfl | ⟨s2, y, hsc⟩
        · exact hs rfl
        · rw [List.concat_eq_append] at hsc
          subst hsc
          rw [renderCitation_eq_concat] at hw
          have hw2 : (w ++ s2) ++ [y] =
              ('[' :: '[' :: (ds' ++ (']' :: ']' :: '(' ::
                (lookupUrl urls (digitsToNat ds')).data))) ++ [')'] := by
            rw [← hw, List.append_assoc]
          have hy : ([y] : List Char) = [')'] := (List.append_inj' hw2 (by simp)).2
          have hyy : y = ')' := (List.cons.injEq _ _ _ _ ▸ hy).1
          have : ')' ∈ markerOf ds := by
            rw [hst, hyy]
            simp
          exact absurd this (rparen_not_mem_marker ds hdig)
    | none =>
      cases l with
      | nil =>
        rw [rewriteChars_nil] at hocc
        have := occ_nil_eq _ hocc
        simp [markerOf] at this
      | cons c cs =>
        rw [rewriteChars_cons_none urls c cs hm] at hocc
        rcases occ_cons_cases _ _ _ hocc with h | h
        · rw [markerOf, List.cons_prefix_cons] at h
          obtain ⟨hc, htp⟩ := h
          have htail : 'S' :: 'R' :: 'C' :: (ds ++ [']']) <+: cs :=
            pre_reflect_rewrite urls _ cs (marker_tail_no_lbracket ds hdig) htp
          obtain ⟨w, hw⟩ := htail
          have : matchMarker (c :: cs) = some (ds, w) := by
            apply (matchMarker_iff _ ds w).mpr
            refine ⟨hne, hdig, ?_⟩
            rw [markerOf_append, ← hc, ← hw]
            simp
          rw [hm] at this
          exact absurd this (by simp)
        · simp only [List.length_cons] at h1
          exact ih cs (by omega) h

/-! ### Length monotonicity of the rewriting under appends -/

theorem pre_of_append_of_length (x y p : List Char) (h : p <+: x ++ y)
    (hl : p.length ≤ x.length) : p <+: x := by
  have h1 : p = (x ++ y).take p.length := List.prefix_iff_eq_take.mp h
  have h2 : (x ++ y).take p.length = x.take p.length := by
    rw [List.take_append_eq_append_take]
    have h3 : p.length - x.length = 0 := by omega
    rw [h3]
    simp
  exact List.prefix_iff_eq_take.mpr (by rw [← h2]; exact h1)

theorem rbracket_not_mem_marker_front (ds : List Char)
    (hdig : ∀ c ∈ ds, c.isDigit = true) :
    ']' ∉ '[' :: 'S' :: 'R' :: 'C' :: ds := by
  intro h
  simp only [List.mem_cons] at h
  rcases h with h | h | h | h | h
  · exact absurd h (by decide)
  · exact absurd h (by decide)
  · exact absurd h (by decide)
  · exact absurd h (by decide)
  · exact absurd (hdig ']' h) (by decide)

theorem render_length_ge (urls : List String) (ds : List Char) :
    (markerOf ds).length ≤ (renderCitation urls ds).length := by
  rw [markerOf, renderCitation]
  simp only [List.length_cons, List.length_append, List.length_singleton]
  omega

/-- Appending further text never shortens the rewritten output: the length of
the rewriting of the accumulated text is monotone in the accumulation. -/
theorem rewriteChars_length_mono (urls : List String) :
    ∀ n p d, p.length ≤ n →
      (rewriteChars urls p).length ≤ (rewriteChars urls (p ++ d)).length := by
  intro n
  induction n with
  | zero =>
    intro p d h1
    have hp : p = [] := List.length_eq_zero.mp (Nat.le_zero.mp h1)
    subst hp
    simp [rewriteChars_nil]
  | succ n ih =>
    intro p d h1
    cases hm : matchMarker p with
    | some q =>
      obtain ⟨ds, r⟩ := q
      have hlen := (matchMarker_length p ds r hm).1
      rw [rewriteChars_match urls _ ds r hm,
        rewriteChars_match urls _ ds (r ++ d) (matchMarker_append_some p d ds r hm)]
      simp only [List.length_append]
      have := ih r d (by omega)
      omega
    | none =>
      cases p with
      | nil => simp [rewriteChars_nil]
      | cons c cs =>
        simp only [List.length_cons] at h1
        cases hm2 : matchMarker ((c :: cs) ++ d) with
        | none =>
          rw [List.cons_append] at hm2
          rw [rewriteChars_cons_none urls c cs hm, List.cons_append,
            rewriteChars_cons_none urls c _ hm2]
          simp only [List.length_cons]
          have := ih cs d (by omega)
          omega
        | some q =>
          obtain ⟨ds, r⟩ := q
          obtain ⟨hne, hdig, heq⟩ := (matchMarker_iff _ ds r).mp hm2
          rw [rewriteChars_match urls _ ds r hm2]
          rcases List.append_eq_append_iff.mp heq with ⟨w, hw1, _⟩ | ⟨w, hw1, _⟩
          · by_cases hw0 : w = []
            · subst hw0
              rw [List.append_nil] at hw1
              have : matchMarker (c :: cs) = some (ds, []) :=
                (matchMarker_iff _ ds []).mpr
                  ⟨hne, hdig, by rw [List.append_nil]; exact hw1.symm⟩
              rw [hm] at this
              exact absurd this (by simp)
            · have hpre : (c :: cs) <+: ('[' :: 'S' :: 'R' :: 'C' :: ds) ++ [']'] := by
                rw [← markerOf_eq_concat]
                exact ⟨w, hw1.symm⟩
              have hlw : (c :: cs).length + w.length = (markerOf ds).length := by
                have := congrArg List.length hw1
                simp only [List.length_append] at this
                omega
              have hwpos : 1 ≤ w.length := by
                cases w with
                | nil => exact absurd rfl hw0
                | cons _ _ => simp
              have hmarklen : (markerOf ds).length =
                  ('[' :: 'S' :: 'R' :: 'C' :: ds).length + 1 := by
                rw [markerOf_eq_concat]
                simp
              have hpre2 : (c :: cs) <+: ('[' :: 'S' :: 'R' :: 'C' :: ds) :=
                pre_of_append_of_length _ _ _ hpre (by omega)
              have hnorb : ']' ∉ (c :: cs) := fun hmem =>
                rbracket_not_mem_marker_front ds hdig (hpre2.subset hmem)
              rw [rewriteChars_of_not_rbracket urls _ hnorb]
              have h6 := render_length_ge urls ds
              simp only [List.length_append]
              omega
          · have : matchMarker (c :: cs) = some (ds, w) :=
              (matchMarker_iff _ ds w).mpr ⟨hne, hdig, hw1⟩
            rw [hm] at this
            exact absurd this (by simp)

/-! ### String-level helpers -/

theorem str_data_append (a b : String) : (a ++ b).data = a.data ++ b.data :=
  String.data_append a b

theorem str_append_empty (s : String) : s ++ "" = s := by
  apply String.ext
  rw [str_data_append]
  simp

theorem str_append_assoc (a b c : String) : (a ++ b) ++ c = a ++ (b ++ c) := by
  apply String.ext
  simp [str_data_append, List.append_assoc]

theorem str_ne_empty_iff_data (s : String) : s ≠ "" ↔ s.data ≠ [] := by
  constructor
  · intro h hd
    exact h (String.ext hd)
  · intro h hs
    subst hs
    exact h rfl

/-! ### Relating the emission stream to the raw accumulations -/

theorem emitAux_eq_map (urls : List String) :
    ∀ ds acc, emitAux urls acc ds = (accumAux acc ds).map (rewriteString urls) := by
  intro ds
  induction ds with
  | nil => intro acc; rfl
  | cons d ds ih =>
    intro acc
    by_cases hd : d = ""
    · simp [emitAux, accumAux, hd, ih]
    · simp [emitAux, accumAux, hd, ih]

theorem accumAux_head :
    ∀ ds (acc h : String), (accumAux acc ds).head? = some h →
      ∃ e, e ≠ "" ∧ h = acc ++ e := by
  intro ds
  induction ds with
  | nil => intro acc h hh; exact absurd hh (by simp [accumAux])
  | cons d ds ih =>
    intro acc h hh
    by_cases hd : d = ""
    · rw [accumAux, if_pos hd] at hh
      exact ih acc h hh
    · rw [accumAux, if_neg hd] at hh
      simp only [List.head?_cons, Option.some.injEq] at hh
      exact ⟨d, hd, hh.symm⟩

theorem accumAux_chain :
    ∀ ds (acc : String), List.Chain'
      (fun a b => ∃ e : String, e ≠ "" ∧ b = a ++ e) (accumAux acc ds) := by
  intro ds
  induction ds with
  | nil => intro acc; simp [accumAux]
  | cons d ds ih =>
    intro acc
    by_cases hd : d = ""
    · rw [accumAux, if_pos hd]
      exact ih acc
    · rw [accumAux, if_neg hd]
      rw [List.chain'_cons']
      refine ⟨?_, ih (acc ++ d)⟩
      intro y hy
      exact accumAux_head ds (acc ++ d) y hy

theorem emitAux_getLast (urls : List String) :
    ∀ ds acc, ds ≠ [] → (∀ d ∈ ds, d ≠ "") →
      (emitAux urls acc ds).getLast? =
        some (rewriteString urls (acc ++ joinFrags ds)) := by
  intro ds
  induction ds with
  | nil => intro acc h _; exact absurd rfl h
  | cons d ds ih =>
    intro acc _ hall
    have hd : d ≠ "" := hall d (List.mem_cons_self _ _)
    rw [emitAux, if_neg hd]
    cases ds with
    | nil =>
      simp only [emitAux, List.getLast?_singleton, Option.some.injEq]
      rw [joinFrags, joinFrags, str_append_empty]
    | cons d2 ds2 =>
      have hd2 : d2 ≠ "" := hall d2 (List.mem_cons_of_mem _ (List.mem_cons_self _ _))
      have hih := ih (acc ++ d) (by simp)
        (fun x hx => hall x (List.mem_cons_of_mem _ hx))
      rw [emitAux, if_neg hd2] at hih ⊢
      rw [List.getLast?_cons_cons, hih]
      show some (rewriteString urls ((acc ++ d) ++ joinFrags (d2 :: ds2))) =
        some (rewriteString urls (acc ++ (d ++ joinFrags (d2 :: ds2))))
      rw [str_append_assoc]

/-! ### The step state machine (`Dewey.step` / `StepYielder`)

A step is a Python dict `{"title": ..., "status": "pending"}` appended to
`self._current_steps`; `StepYielder.start`/`complete` mutate it in place and
return `("", self.steps_list.copy())`.  `list.copy()` is a shallow copy: it
copies the list of dict references, not the dicts.  We model dict identity by
the index into the run's step store (steps are only ever appended), so a
snapshot is the list of indices present at emission time; dereferencing a
snapshot against a later store shows any in-place mutations, exactly like the
aliased dicts. -/

inductive Status where
  | pending
  | done
deriving DecidableEq

structure StepRec where
  title : String
  status : Status
  content : Option String
deriving DecidableEq

/-- One in-place write of a step's `status` field, with the value it
overwrote (ghost instrumentation used to count transitions). -/
structure StatusWrite where
  idx : Nat
  old : Status
  new : Status
deriving DecidableEq

/-- One yielded event of `Dewey.process`: the answer text and the shallow
snapshot (the list of step references), plus the store contents at emission
time (ghost data used to compare views). -/
structure Ev where
  text : String
  snapIds : List Nat
  storeAt : List StepRec
deriving DecidableEq

inductive PyErr where
  | attributeError
  | stageError
deriving DecidableEq

structure RunOut where
  events : List Ev
  steps : List StepRec
  writes : List StatusWrite
  error : Option PyErr
deriving DecidableEq

/-- Dereference a shallow snapshot against a step store (what a consumer of
the snapshot sees if it reads the dicts at that point of the run). -/
def viewSnap (ids : List Nat) (σ : List StepRec) : List StepRec :=
  ids.filterMap σ.get?

def setStatusAt (σ : List StepRec) (i : Nat) (st : Status) : List StepRec :=
  match σ.get? i with
  | some s => σ.set i { s with status := st }
  | none => σ

def setContentAt (σ : List StepRec) (i : Nat) (c : String) : List StepRec :=
  match σ.get? i with
  | some s => σ.set i { s with content := some c }
  | none => σ

/-- The `StepYielder` state: the step it is bound to and the `has_started`
flag. -/
structure Yielder where
  stepIdx : Nat
  hasStarted : Bool
deriving DecidableEq

/-- The operation `StepYielder.start` (dewey.py lines 56-62): on the first invocation it
optionally sets the content, flips `has_started` and returns
`("", steps_list.copy())`; afterwards it returns `None`. -/
def yielderStart (σ : List StepRec) (y : Yielder) (content : String) :
    Option (String × List Nat) × Yielder × List StepRec :=
  if y.hasStarted then (none, y, σ)
  else
    let σ2 := if content = "" then σ else setContentAt σ y.stepIdx content
    (some ("", List.range σ2.length), { y with hasStarted := true }, σ2)

/-- The operation `StepYielder.complete` (dewey.py lines 64-68): sets the status to done,
optionally overwrites the content and returns `("", steps_list.copy())`. -/
def yielderComplete (σ : List StepRec) (y : Yielder) (content : String) :
    (String × List Nat) × List StepRec :=
  let σ1 := setStatusAt σ y.stepIdx Status.done
  let σ2 := if content = "" then σ1 else setContentAt σ1 y.stepIdx content
  (("", List.range σ2.length), σ2)

/-! ### The trace of `Dewey.process` (lines 126-187)

External results are injected: `metaTip` is the `tip_metadata` text for the
stage-1 `complete` call (`none` models an exception raised by
`generate_metadata` inside the step scope); `stage2` carries the
`tip_search` text and the url of each retrieved source in order (`none`
models an exception raised by `retrieve_articles`). -/

def step1Started : StepRec :=
  ⟨"Generating metadata", Status.pending, some "🔍 I'm planning my approach."⟩

def step1Done (mTip : String) : StepRec :=
  ⟨"Generating metadata", Status.done,
    some (if mTip = "" then "🔍 I'm planning my approach." else mTip)⟩

def step2Started : StepRec :=
  ⟨"Searching articles", Status.pending, some "🔍 Digging through the archives"⟩

def step2Done (sTip : String) : StepRec :=
  ⟨"Searching articles", Status.done,
    some (if sTip = "" then "🔍 Digging through the archives" else sTip)⟩

/-- The events of the generation loop: each nonempty delta is appended to the
accumulator and the rewritten accumulation is yielded together with a fresh
shallow copy of the (now final) step list. -/
def genEvents (urls : List String) (σ : List StepRec) (k : Nat) (acc : String) :
    List String → List Ev
  | [] => []
  | d :: ds =>
    if d = "" then genEvents urls σ k acc ds
    else ⟨rewriteString urls (acc ++ d), List.range k, σ⟩ ::
      genEvents urls σ k (acc ++ d) ds

/-- The full observable trace of one `Dewey.process` run.

With `show_steps = false`, `Dewey.step` yields the bare `lambda: None` and
`process` immediately calls `.start(...)` on it, raising `AttributeError`
before any step is recorded or any event is yielded.

With `show_steps = true`, the run proceeds through the two step scopes; on a
stage failure the scope's `finally` still forces the step's status to done
and the error propagates, ending the run. -/
def runProcess (metaTip : Option String) (stage2 : Option (String × List String))
    (deltas : List String) (show_steps : Bool) : RunOut :=
  if show_steps = false then
    ⟨[], [], [], some PyErr.attributeError⟩
  else
    let e1 : Ev := ⟨"", List.range 1, [step1Started]⟩
    match metaTip with
    | none =>
      ⟨[e1], [step1Done ""], [⟨0, Status.pending, Status.done⟩],
        some PyErr.stageError⟩
    | some mTip =>
      let e2 : Ev := ⟨"", List.range 1, [step1Done mTip]⟩
      let e3 : Ev := ⟨"", List.range 2, [step1Done mTip, step2Started]⟩
      match stage2 with
      | none =>
        ⟨[e1, e2, e3], [step1Done mTip, step2Done ""],
          [⟨0, Status.pending, Status.done⟩, ⟨0, Status.done, Status.done⟩,
            ⟨1, Status.pending, Status.done⟩],
          some PyErr.stageError⟩
      | some (sTip, urls) =>
        let σ6 := [step1Done mTip, step2Done sTip]
        let e4 : Ev := ⟨"", List.range 2, σ6⟩
        ⟨[e1, e2, e3, e4] ++ genEvents urls σ6 2 "" deltas, σ6,
          [⟨0, Status.pending, Status.done⟩, ⟨0, Status.done, Status.done⟩,
            ⟨1, Status.pending, Status.done⟩, ⟨1, Status.done, Status.done⟩],
          none⟩

/-! ### The search query construction (`Dewey.retrieve_articles`) -/

structure DateRange where
  start_date : Option String
  end_date : Option String
deriving DecidableEq

/-- The structured search intent produced by `generate_metadata` against the
`search_archive` function schema. -/
structure SearchIntent where
  question : String
  date_range : DateRange
  authors : List String
deriving DecidableEq

/-- Every parameter of the single search-service query issued by
`retrieve_articles` (dewey.py lines 87-111): the embedding input, the vector
query configuration and the search call arguments. -/
structure SearchQuery where
  search_text : String
  embedded_text : String
  k_nearest_neighbors : Nat
  vector_fields : String
  top : Nat
  query_type : String
  semantic_configuration_name : String
  semantic_query : String
  select : List String
deriving DecidableEq

def retrieveQuery (m : SearchIntent) : SearchQuery :=
  { search_text := m.question
    embedded_text := m.question
    k_nearest_neighbors := 50
    vector_fields := "content_vector"
    top := 10
    query_type := "semantic"
    semantic_configuration_name := "default"
    semantic_query := m.question
    select := ["url", "headline", "publish_date", "content", "authors"] }

theorem str_empty_append (s : String) : "" ++ s = s := by
  apply String.ext
  rw [str_data_append]
  show ([] : List Char) ++ s.data = s.data
  simp

/-- Consecutive emissions of the generation loop are the rewritings of two
raw accumulations, the second of which extends the first by one nonempty
delta. -/
theorem emissions_get_rel (urls : List String) (deltas : List String) (i : Nat)
    (h : i + 1 < (emissions urls deltas).length) :
    ∃ (p e : String), e ≠ "" ∧
      (emissions urls deltas).get ⟨i, by omega⟩ = rewriteString urls p ∧
      (emissions urls deltas).get ⟨i + 1, h⟩ = rewriteString urls (p ++ e) := by
  have hmap : emissions urls deltas = (accumAux "" deltas).map (rewriteString urls) :=
    emitAux_eq_map urls deltas ""
  have hlen : (emissions urls deltas).length = (accumAux "" deltas).length := by
    rw [hmap]
    simp
  have hget : ∀ (j : Nat) (hj : j < (emissions urls deltas).length),
      (emissions urls deltas).get ⟨j, hj⟩ =
        rewriteString urls ((accumAux "" deltas).get ⟨j, by omega⟩) := by
    intro j hj
    simp only [List.get_eq_getElem, hmap, List.getElem_map]
  have hchain := accumAux_chain deltas ""
  rw [List.chain'_iff_get] at hchain
  obtain ⟨e, hene, heq⟩ := hchain i (by omega)
  refine ⟨(accumAux "" deltas).get ⟨i, by omega⟩, e, hene, hget i (by omega), ?_⟩
  rw [hget (i + 1) h]
  congr 1

/-- Modelled from the spec: "the i-th emission with all rendered citation
markers stripped out".  The spec does not name a concrete procedure, so we
scan for blocks of the shape double-open-bracket, digit group,
double-close-bracket, parenthesised resolved url, and drop each such
rendered citation. -/
def matchRendered (urls : List String) : List Char → Option (List Char)
  | '[' :: '[' :: rest =>
    match takeDigits rest with
    | (ds, r) =>
      if ds = [] then none
      else
        match r with
        | ']' :: ']' :: '(' :: r2 =>
          if List.isPrefixOf (lookupUrl urls (digitsToNat ds)).data r2 then
            match r2.drop (lookupUrl urls (digitsToNat ds)).data.length with
            | ')' :: r3 => some r3
            | _ => none
          else none
        | _ => none
  | _ => none

def stripAux (urls : List String) : Nat → List Char → List Char
  | 0, l => l
  | Nat.succ fuel, l =>
    match matchRendered urls l with
    | some rest => stripAux urls fuel rest
    | none =>
      match l with
      | [] => []
      | c :: cs => c :: stripAux urls fuel cs

/-- Modelled from the spec: strip every rendered citation marker from an
emission (see `matchRendered`). -/
def stripRenderedSpec (urls : List String) (s : String) : String :=
  String.mk (stripAux urls s.data.length s.data)

example : stripRenderedSpec ["u"] "[[1]](u)" = "" := by decide

example : stripRenderedSpec ["u"] "a[[1]](u)b" = "ab" := by decide

example : stripRenderedSpec ["u"] "[SRC1" = "[SRC1" := by decide

example : rewriteChars ["u"] ("x[SRC1]y".data) = ("x[[1]](u)y".data) := by decide

/-! ## Claims -/

/-- C1 (counterexample): the claim as stated fails.  With retrieved sources
whose third url is the string `[SRC3]` and a fragment whose text contains
`[SRC3]` twice, the final emission of the generation loop contains the
rendered citation of source 3 twice (not exactly once) and still contains
an occurrence of the unrewritten `[SRC3]` (inside the rendered urls). -/
theorem citation_rewrite_c1_cex :
    (emissions ["a", "b", "[SRC3]"] ["[SRC3][SRC3]"]).getLast? =
      some "[[3]]([SRC3])[[3]]([SRC3])" ∧
    countOcc ("[[3]]([SRC3])".data) ("[[3]]([SRC3])[[3]]([SRC3])".data) = 2 ∧
    "[SRC3]".data <:+: ("[[3]]([SRC3])[[3]]([SRC3])".data) := by
  refine ⟨by decide, by decide, ⟨"[[3]](".data, ")[[3]]([SRC3])".data, by decide⟩⟩

/-- C1 (amended): for every stream of nonempty fragments whose concatenation
contains `[SRC3]`, with at least three retrieved sources, however the marker
is split across fragments: the final emission of the generation loop is the
rewriting of the full concatenation, it contains the rendered citation
`[[3]](<url of source 3>)` at least once, the url used is the third source's
url, and — provided no source url itself contains `[SRC3]` — no occurrence
of the unrewritten `[SRC3]` remains. -/
theorem citation_rewrite_c1 (urls : List String) (frags : List String)
    (hne : frags ≠ []) (hall : ∀ d ∈ frags, d ≠ "") (h3 : 3 ≤ urls.length)
    (hocc : "[SRC3]".data <:+: (joinFrags frags).data) :
    (emissions urls frags).getLast? =
      some (rewriteString urls (joinFrags frags)) ∧
    renderCitation urls ['3'] <:+: (rewriteString urls (joinFrags frags)).data ∧
    (∃ u3, urls.get? 2 = some u3 ∧ lookupUrl urls (digitsToNat ['3']) = u3) ∧
    ((∀ u ∈ urls, ¬ ("[SRC3]".data <:+: u.data)) →
      ¬ ("[SRC3]".data <:+: (rewriteString urls (joinFrags frags)).data)) := by
  have hmk : markerOf ['3'] = "[SRC3]".data := by decide
  refine ⟨?_, ?_, ?_, ?_⟩
  · have := emitAux_getLast urls frags "" hne hall
    rw [str_empty_append] at this
    exact this
  · show renderCitation urls ['3'] <:+: rewriteChars urls (joinFrags frags).data
    exact renderCitation_occ_rewrite urls (joinFrags frags).data.length _ ['3']
      le_rfl (by decide) (by decide) (by rw [hmk]; exact hocc)
  · have hlt : (2 : Nat) < urls.length := by omega
    obtain ⟨u, hu⟩ : ∃ u, urls.get? 2 = some u :=
      ⟨_, List.get?_eq_get hlt⟩
    refine ⟨u, hu, ?_⟩
    show lookupUrl urls 3 = u
    unfold lookupUrl
    rw [if_neg (by omega)]
    rw [show (3 : Nat) - 1 = 2 from rfl, hu]
  · intro hurl
    show ¬ "[SRC3]".data <:+: rewriteChars urls (joinFrags frags).data
    rw [← hmk]
    rw [← hmk] at hurl
    exact marker_not_occ_rewrite urls ['3'] (by decide) (by decide) hurl
      (joinFrags frags).data.length _ le_rfl

/-- C1 (witness): a concrete run with the marker split across two fragments. -/
theorem citation_rewrite_c1_witness :
    (emissions ["u1", "u2", "u3"] ["x [SR", "C3] y"]).getLast? =
      some (rewriteString ["u1", "u2", "u3"] (joinFrags ["x [SR", "C3] y"])) ∧
    renderCitation ["u1", "u2", "u3"] ['3'] <:+:
      (rewriteString ["u1", "u2", "u3"] (joinFrags ["x [SR", "C3] y"])).data ∧
    (∃ u3, ["u1", "u2", "u3"].get? 2 = some u3 ∧
      lookupUrl ["u1", "u2", "u3"] (digitsToNat ['3']) = u3) ∧
    ¬ ("[SRC3]".data <:+:
      (rewriteString ["u1", "u2", "u3"] (joinFrags ["x [SR", "C3] y"])).data) := by
  have h := citation_rewrite_c1 ["u1", "u2", "u3"] ["x [SR", "C3] y"]
    (by decide) (by decide) (by decide) ⟨"x ".data, " y".data, by decide⟩
  exact ⟨h.1, h.2.1, h.2.2.1, h.2.2.2 (by decide)⟩

theorem genEvents_mem (urls : List String) (σ : List StepRec) (k : Nat) :
    ∀ ds acc e, e ∈ genEvents urls σ k acc ds →
      e.snapIds = List.range k ∧ e.storeAt = σ := by
  intro ds
  induction ds with
  | nil => intro acc e he; exact absurd he (by simp [genEvents])
  | cons d ds ih =>
    intro acc e he
    by_cases hd : d = ""
    · rw [genEvents, if_pos hd] at he
      exact ih acc e he
    · rw [genEvents, if_neg hd] at he
      rcases List.mem_cons.mp he with rfl | h2
      · exact ⟨rfl, rfl⟩
      · exact ih (acc ++ d) e h2

/-- C2 (counterexample): the claim as stated fails.  The list copy taken by
a snapshot is shallow, so the first emitted snapshot, taken while step 1 was
pending, shows status done (and the overwritten content) when dereferenced
after the run: the emitted snapshot is mutated retroactively. -/
theorem snapshot_shallow_c2_cex :
    (runProcess (some "m") (some ("s", [])) [] true).events.head? =
      some ⟨"", List.range 1, [step1Started]⟩ ∧
    viewSnap (List.range 1) [step1Started] = [step1Started] ∧
    step1Started.status = Status.pending ∧
    viewSnap (List.range 1) (runProcess (some "m") (some ("s", [])) [] true).steps =
      [step1Done "m"] ∧
    (step1Done "m").status = Status.done ∧
    viewSnap (List.range 1) [step1Started] ≠
      viewSnap (List.range 1) (runProcess (some "m") (some ("s", [])) [] true).steps := by
  exact ⟨rfl, rfl, rfl, rfl, rfl, by decide⟩

/-- C2 (amended): the snapshot copies the list of step references, so its
structure is fixed at emission: the snapshot holds exactly the references of
the steps begun so far, later-begun steps never appear in it, and the
(immutable) titles seen through it never change; but status and content
updates made after emission are visible through the shared step entries. -/
theorem snapshot_shallow_c2 (mt : Option String) (s2 : Option (String × List String))
    (d : List String) (flag : Bool) :
    ∀ e ∈ (runProcess mt s2 d flag).events,
      e.snapIds = List.range e.storeAt.length ∧
      (viewSnap e.snapIds (runProcess mt s2 d flag).steps).length =
        (viewSnap e.snapIds e.storeAt).length ∧
      (viewSnap e.snapIds (runProcess mt s2 d flag).steps).map StepRec.title =
        (viewSnap e.snapIds e.storeAt).map StepRec.title := by
  intro e he
  cases flag with
  | false => exact absurd he (by simp [runProcess])
  | true =>
    cases mt with
    | none =>
      have : e = ⟨"", List.range 1, [step1Started]⟩ := by
        simpa [runProcess] using he
      subst this
      exact ⟨rfl, rfl, rfl⟩
    | some mTip =>
      cases s2 with
      | none =>
        have : e = ⟨"", List.range 1, [step1Started]⟩ ∨
            e = ⟨"", List.range 1, [step1Done mTip]⟩ ∨
            e = ⟨"", List.range 2, [step1Done mTip, step2Started]⟩ := by
          simpa [runProcess] using he
        rcases this with rfl | rfl | rfl
        · exact ⟨rfl, rfl, rfl⟩
        · exact ⟨rfl, rfl, rfl⟩
        · exact ⟨rfl, rfl, rfl⟩
      | some p =>
        obtain ⟨sTip, urls⟩ := p
        have hev : e = ⟨"", List.range 1, [step1Started]⟩ ∨
            e = ⟨"", List.range 1, [step1Done mTip]⟩ ∨
            e = ⟨"", List.range 2, [step1Done mTip, step2Started]⟩ ∨
            e = ⟨"", List.range 2, [step1Done mTip, step2Done sTip]⟩ ∨
            e ∈ genEvents urls [step1Done mTip, step2Done sTip] 2 "" d := by
          simpa [runProcess] using he
        rcases hev with rfl | rfl | rfl | rfl | hg
        · exact ⟨rfl, rfl, rfl⟩
        · exact ⟨rfl, rfl, rfl⟩
        · exact ⟨rfl, rfl, rfl⟩
        · exact ⟨rfl, rfl, rfl⟩
        · obtain ⟨hids, hst⟩ := genEvents_mem urls _ 2 d "" e hg
          rw [hids, hst]
          exact ⟨rfl, rfl, rfl⟩

/-- C2 (witness): the structural-stability facts instantiated at the first
event of a concrete run. -/
theorem snapshot_shallow_c2_witness :
    (⟨"", List.range 1, [step1Started]⟩ : Ev).snapIds =
      List.range (⟨"", List.range 1, [step1Started]⟩ : Ev).storeAt.length ∧
    (viewSnap (⟨"", List.range 1, [step1Started]⟩ : Ev).snapIds
        (runProcess (some "m") none [] true).steps).length =
      (viewSnap (⟨"", List.range 1, [step1Started]⟩ : Ev).snapIds
        (⟨"", List.range 1, [step1Started]⟩ : Ev).storeAt).length ∧
    (viewSnap (⟨"", List.range 1, [step1Started]⟩ : Ev).snapIds
        (runProcess (some "m") none [] true).steps).map StepRec.title =
      (viewSnap (⟨"", List.range 1, [step1Started]⟩ : Ev).snapIds
        (⟨"", List.range 1, [step1Started]⟩ : Ev).storeAt).map StepRec.title :=
  snapshot_shallow_c2 (some "m") none [] true
    ⟨"", List.range 1, [step1Started]⟩ (by decide)

/-- C3 (code bug): with step reporting disabled, `Dewey.step` yields the
bare `lambda: None` and `process` immediately calls `.start(...)` on it,
which raises `AttributeError`; every `show_steps=False` run fails before
recording any step or yielding any event, for all inputs — the claim that
the pipeline is unaffected is right about the intent and wrong about the
code. -/
theorem show_steps_false_raises_c3 (mt : Option String)
    (s2 : Option (String × List String)) (d : List String) :
    runProcess mt s2 d false = ⟨[], [], [], some PyErr.attributeError⟩ := rfl

/-- C4: in every run (all injected stage outcomes, both flags), every step
record that was begun has status done when the run ends, its status
underwent exactly one pending-to-done write, and `StepYielder.start` returns
a snapshot at most once: any invocation after a first one returns nothing. -/
theorem step_lifecycle_c4 :
    (∀ (mt : Option String) (s2 : Option (String × List String))
      (d : List String) (flag : Bool),
      ∀ st ∈ (runProcess mt s2 d flag).steps, st.status = Status.done) ∧
    (∀ (mt : Option String) (s2 : Option (String × List String))
      (d : List String) (flag : Bool),
      ∀ i, i < (runProcess mt s2 d flag).steps.length →
        ((runProcess mt s2 d flag).writes.countP
          (fun w => w.idx == i && w.old == Status.pending &&
            w.new == Status.done)) = 1) ∧
    (∀ (σ : List StepRec) (y : Yielder) (c c' : String),
      (yielderStart (yielderStart σ y c).2.2 (yielderStart σ y c).2.1 c').1 =
        none) := by
  refine ⟨?_, ?_, ?_⟩
  · intro mt s2 d flag st hst
    cases flag with
    | false => exact absurd hst (by simp [runProcess])
    | true =>
      cases mt with
      | none =>
        have : st = step1Done "" := by simpa [runProcess] using hst
        subst this
        rfl
      | some mTip =>
        cases s2 with
        | none =>
          have : st = step1Done mTip ∨ st = step2Done "" := by
            simpa [runProcess] using hst
          rcases this with rfl | rfl
          · rfl
          · rfl
        | some p =>
          obtain ⟨sTip, urls⟩ := p
          have : st = step1Done mTip ∨ st = step2Done sTip := by
            simpa [runProcess] using hst
          rcases this with rfl | rfl
          · rfl
          · rfl
  · intro mt s2 d flag i hi
    cases flag with
    | false => simp [runProcess] at hi
    | true =>
      cases mt with
      | none =>
        have h1 : i < 1 := by simpa [runProcess] using hi
        have h0 : i = 0 := by omega
        subst h0
        rfl
      | some mTip =>
        cases s2 with
        | none =>
          have h1 : i < 2 := by simpa [runProcess] using hi
          have h0 : i = 0 ∨ i = 1 := by omega
          rcases h0 with rfl | rfl
          · rfl
          · rfl
        | some p =>
          obtain ⟨sTip, urls⟩ := p
          have h1 : i < 2 := by simpa [runProcess] using hi
          have h0 : i = 0 ∨ i = 1 := by omega
          rcases h0 with rfl | rfl
          · rfl
          · rfl
  · intro σ y c c'
    by_cases hy : y.hasStarted
    · simp [yielderStart, hy]
    · simp [yielderStart, hy]

/-- C4 (witness): the lifecycle facts at a concrete successful run, a
concrete failed run, and a concrete double-start. -/
theorem step_lifecycle_c4_witness :
    (step1Done "m").status = Status.done ∧
    (step1Done "").status = Status.done ∧
    ((runProcess (some "m") (some ("s", ["u"])) ["d"] true).writes.countP
      (fun w => w.idx == 0 && w.old == Status.pending &&
        w.new == Status.done)) = 1 ∧
    (yielderStart (yielderStart [] ⟨0, false⟩ "c").2.2
      (yielderStart [] ⟨0, false⟩ "c").2.1 "c2").1 = none := by
  have h := step_lifecycle_c4
  exact ⟨h.1 (some "m") (some ("s", ["u"])) ["d"] true (step1Done "m") (by decide),
    h.1 none none [] true (step1Done "") (by decide),
    h.2.1 (some "m") (some ("s", ["u"])) ["d"] true 0 (by decide),
    h.2.2 [] ⟨0, false⟩ "c" "c2"⟩

example : rewriteChars ["u"] ("x[SRC1".data) = ("x[SRC1".data) := by decide

example : rewriteChars [] ("a[SRC2]b".data) = ("a[[2]](#)b".data) := by decide

example : rewriteChars ["u"] ("[SRC01]".data) = ("[[01]](u)".data) := by decide

example :
    emissions ["u"] ["[SRC1", "]"] = ["[SRC1", "[[1]](u)"] := by decide

example :
    countOcc ("[[3]]([SRC3])".data)
      (rewriteChars ["a", "b", "[SRC3]"] ("[SRC3][SRC3]".data)) = 2 := by decide

theorem emissions_length (urls : List String) (deltas : List String) :
    (emissions urls deltas).length = (accumTexts deltas).length := by
  rw [show emissions urls deltas = (accumTexts deltas).map (rewriteString urls)
    from emitAux_eq_map urls deltas ""]
  simp

/-- C5 (counterexample): the claim as stated fails.  When a fragment ends in
a partial marker the emitted text shows it literally; the next fragment
completes the marker and the whole marker is rewritten, so the earlier
emission is not a literal prefix of the later one. -/
theorem emission_raw_prefix_c5_cex :
    emissions ["u"] ["[SRC1", "]"] = ["[SRC1", "[[1]](u)"] ∧
    ¬ (("[SRC1" : String).data <+: ("[[1]](u)" : String).data) := by
  exact ⟨by decide, by decide⟩

/-- C5 (amended): each emission is the citation-rewriting of a raw
accumulated text, and these raw texts form a strict prefix chain: the raw
text of emission i is a strict prefix of the raw text of emission i+1.  The
rewritten emissions themselves need not extend each other literally, because
a trailing partial marker shown literally is replaced once completed. -/
theorem emission_raw_prefix_c5 (urls : List String) (deltas : List String)
    (i : Nat) (h : i + 1 < (emissions urls deltas).length) :
    (emissions urls deltas).get ⟨i, by omega⟩ =
      rewriteString urls ((accumTexts deltas).get
        ⟨i, by rw [← emissions_length urls deltas]; omega⟩) ∧
    (emissions urls deltas).get ⟨i + 1, h⟩ =
      rewriteString urls ((accumTexts deltas).get
        ⟨i + 1, by rw [← emissions_length urls deltas]; omega⟩) ∧
    ((accumTexts deltas).get
        ⟨i, by rw [← emissions_length urls deltas]; omega⟩).data <+:
      ((accumTexts deltas).get
        ⟨i + 1, by rw [← emissions_length urls deltas]; omega⟩).data ∧
    (accumTexts deltas).get
        ⟨i, by rw [← emissions_length urls deltas]; omega⟩ ≠
      (accumTexts deltas).get
        ⟨i + 1, by rw [← emissions_length urls deltas]; omega⟩ := by
  have hmap : emissions urls deltas = (accumTexts deltas).map (rewriteString urls) :=
    emitAux_eq_map urls deltas ""
  have hchain := accumAux_chain deltas ""
  rw [List.chain'_iff_get] at hchain
  have hlen := emissions_length urls deltas
  obtain ⟨e, hene, heq⟩ := hchain i (by
    show i < (accumAux "" deltas).length - 1
    have : (accumTexts deltas).length = (accumAux "" deltas).length := rfl
    omega)
  refine ⟨?_, ?_, ?_, ?_⟩
  · simp only [List.get_eq_getElem, hmap, List.getElem_map]
  · simp only [List.get_eq_getElem, hmap, List.getElem_map]
  · refine ⟨e.data, ?_⟩
    show ((accumAux "" deltas).get _).data ++ e.data = ((accumAux "" deltas).get _).data
    rw [← str_data_append]
    exact congrArg String.data heq.symm
  · intro hcontra
    have hkey : ∀ (q r : String), q = r ++ e → q = r → False := by
      intro q r hqe hqr
      rw [hqr] at hqe
      have hd := congrArg String.data hqe
      rw [str_data_append] at hd
      have hl := congrArg List.length hd
      simp only [List.length_append] at hl
      exact (str_ne_empty_iff_data e).mp hene (List.length_eq_zero.mp (by omega))
    exact hkey _ _ heq hcontra.symm

/-- C5 (witness): the chain facts at a concrete two-fragment run. -/
theorem emission_raw_prefix_c5_witness :
    (emissions ["u"] ["ab", "cd"]).get ⟨0, by decide⟩ =
      rewriteString ["u"] ((accumTexts ["ab", "cd"]).get ⟨0, by decide⟩) ∧
    (emissions ["u"] ["ab", "cd"]).get ⟨1, by decide⟩ =
      rewriteString ["u"] ((accumTexts ["ab", "cd"]).get ⟨1, by decide⟩) ∧
    ((accumTexts ["ab", "cd"]).get ⟨0, by decide⟩).data <+:
      ((accumTexts ["ab", "cd"]).get ⟨1, by decide⟩).data ∧
    (accumTexts ["ab", "cd"]).get ⟨0, by decide⟩ ≠
      (accumTexts ["ab", "cd"]).get ⟨1, by decide⟩ :=
  emission_raw_prefix_c5 ["u"] ["ab", "cd"] 0 (by decide)

/-- C6 (counterexample): the claim as stated fails.  Stripping rendered
citation markers from the emissions is not enough for prefix monotonicity: a
trailing partial raw marker is literal text (not a rendered marker, so not
stripped) in the earlier emission, yet once completed it is rewritten into a
rendered marker and stripped from the later one. -/
theorem emission_length_monotone_c6_cex :
    emissions ["a", "b"] ["[SRC2", "]"] = ["[SRC2", "[[2]](b)"] ∧
    stripRenderedSpec ["a", "b"] "[SRC2" = "[SRC2" ∧
    stripRenderedSpec ["a", "b"] "[[2]](b)" = "" ∧
    ¬ ((stripRenderedSpec ["a", "b"] "[SRC2").data <+:
      (stripRenderedSpec ["a", "b"] "[[2]](b)").data) := by
  exact ⟨by decide, by decide, by decide, by decide⟩

/-- C6 (amended): the emitted rewritten prefixes have non-decreasing length,
and the raw accumulated content underlying the i-th emission (of which the
emission is the citation-rewriting) is a prefix of that underlying the
(i+1)-th. -/
theorem emission_length_monotone_c6 (urls : List String) (deltas : List String)
    (i : Nat) (h : i + 1 < (emissions urls deltas).length) :
    ((emissions urls deltas).get ⟨i, by omega⟩).length ≤
      ((emissions urls deltas).get ⟨i + 1, h⟩).length ∧
    ((accumTexts deltas).get
        ⟨i, by rw [← emissions_length urls deltas]; omega⟩).data <+:
      ((accumTexts deltas).get
        ⟨i + 1, by rw [← emissions_length urls deltas]; omega⟩).data ∧
    (emissions urls deltas).get ⟨i, by omega⟩ =
      rewriteString urls ((accumTexts deltas).get
        ⟨i, by rw [← emissions_length urls deltas]; omega⟩) := by
  obtain ⟨h1, h2, h3, _⟩ := emission_raw_prefix_c5 urls deltas i h
  refine ⟨?_, h3, h1⟩
  obtain ⟨e, he⟩ := h3
  rw [h1, h2]
  show (rewriteChars urls _).length ≤ (rewriteChars urls _).length
  have hq : ((accumTexts deltas).get
      ⟨i + 1, by rw [← emissions_length urls deltas]; omega⟩).data =
      ((accumTexts deltas).get
        ⟨i, by rw [← emissions_length urls deltas]; omega⟩).data ++ e := by
    rw [he]
  rw [hq]
  exact rewriteChars_length_mono urls _ _ e le_rfl

/-- C6 (witness): the monotonicity facts at a concrete two-fragment run. -/
theorem emission_length_monotone_c6_witness :
    ((emissions ["v"] ["x", "yz"]).get ⟨0, by decide⟩).length ≤
      ((emissions ["v"] ["x", "yz"]).get ⟨1, by decide⟩).length ∧
    ((accumTexts ["x", "yz"]).get ⟨0, by decide⟩).data <+:
      ((accumTexts ["x", "yz"]).get ⟨1, by decide⟩).data ∧
    (emissions ["v"] ["x", "yz"]).get ⟨0, by decide⟩ =
      rewriteString ["v"] ((accumTexts ["x", "yz"]).get ⟨0, by decide⟩) :=
  emission_length_monotone_c6 ["v"] ["x", "yz"] 0 (by decide)

/-- An incomplete citation marker: a nonempty text that is a proper start of
some marker, cut before the closing bracket (a lone `[`, or `[SRC`, or
`[SRC` followed by part of the digit group). -/
def IsIncompleteMarker (t : List Char) : Prop :=
  t ≠ [] ∧ ∃ ds : List Char, (∀ c ∈ ds, c.isDigit = true) ∧
    t <+: ('[' :: 'S' :: 'R' :: 'C' :: ds)

/-- C7: an accumulation ending in an incomplete marker is rewritten by
leaving the incomplete token as literal, unmodified trailing text (the rest
of the accumulation rewrites exactly as it would alone), and once a later
fragment closes the marker the completed marker is rewritten into its
rendered citation in place. -/
theorem incomplete_marker_literal_c7 (urls : List String) (a t ds : List Char) :
    (IsIncompleteMarker t →
      rewriteChars urls (a ++ t) = rewriteChars urls a ++ t) ∧
    (ds ≠ [] → (∀ c ∈ ds, c.isDigit = true) →
      rewriteChars urls (a ++ markerOf ds) =
        rewriteChars urls a ++ renderCitation urls ds) := by
  constructor
  · rintro ⟨_, ds2, hdig, hpre⟩
    apply rewriteChars_append_of_not_rbracket urls a.length a t le_rfl
    intro hmem
    exact rbracket_not_mem_marker_front ds2 hdig (hpre.subset hmem)
  · intro hne hdig
    exact rewriteChars_append_marker urls a.length a ds le_rfl hne hdig

/-- C7 (witness): a concrete accumulation ending in the partial marker
`[SRC1`, then completed by the closing bracket. -/
theorem incomplete_marker_literal_c7_witness :
    rewriteChars ["u"] ("see [SRC1] and ".data ++ "[SRC1".data) =
      rewriteChars ["u"] ("see [SRC1] and ".data) ++ "[SRC1".data ∧
    rewriteChars ["u"] ("see [SRC1] and ".data ++ markerOf ['1']) =
      rewriteChars ["u"] ("see [SRC1] and ".data) ++ renderCitation ["u"] ['1'] := by
  have h := incomplete_marker_literal_c7 ["u"] ("see [SRC1] and ".data)
    ("[SRC1".data) ['1']
  exact ⟨h.1 ⟨by decide, ['1'], by decide, ⟨[], by decide⟩⟩,
    h.2 (by decide) (by decide)⟩

/-- C8: a marker whose number resolves to no retrieved source (it exceeds
the number of sources) is rendered with the placeholder anchor instead of
failing, and a resolvable marker is rendered with the url of its source. -/
theorem unresolved_marker_placeholder_c8 (urls : List String) (l ds : List Char)
    (hne : ds ≠ []) (hdig : ∀ c ∈ ds, c.isDigit = true)
    (hocc : markerOf ds <:+: l) :
    (urls.length < digitsToNat ds →
      renderCitation urls ds <:+: rewriteChars urls l ∧
      lookupUrl urls (digitsToNat ds) = "#") ∧
    (1 ≤ digitsToNat ds → digitsToNat ds ≤ urls.length →
      ∃ u, urls.get? (digitsToNat ds - 1) = some u ∧
        lookupUrl urls (digitsToNat ds) = u ∧
        renderCitation urls ds <:+: rewriteChars urls l) := by
  have hren := renderCitation_occ_rewrite urls l.length l ds le_rfl hne hdig hocc
  constructor
  · intro hgt
    refine ⟨hren, ?_⟩
    unfold lookupUrl
    by_cases h0 : digitsToNat ds = 0
    · simp [h0]
    · rw [if_neg h0]
      have hnone : urls.get? (digitsToNat ds - 1) = none := by
        rw [List.get?_eq_none]
        omega
      rw [hnone]
  · intro h1 h2
    have hlt : digitsToNat ds - 1 < urls.length := by omega
    obtain ⟨u, hu⟩ : ∃ u, urls.get? (digitsToNat ds - 1) = some u :=
      ⟨_, List.get?_eq_get hlt⟩
    refine ⟨u, hu, ?_, hren⟩
    unfold lookupUrl
    rw [if_neg (by omega), hu]

/-- C8 (witness): with two sources, `[SRC4]` renders to the placeholder
anchor and `[SRC2]` renders to the second source's url. -/
theorem unresolved_marker_placeholder_c8_witness :
    (renderCitation ["u1", "u2"] ['4'] <:+:
        rewriteChars ["u1", "u2"] ("a[SRC4]b".data) ∧
      lookupUrl ["u1", "u2"] (digitsToNat ['4']) = "#") ∧
    (∃ u, ["u1", "u2"].get? (digitsToNat ['2'] - 1) = some u ∧
      lookupUrl ["u1", "u2"] (digitsToNat ['2']) = u ∧
      renderCitation ["u1", "u2"] ['2'] <:+:
        rewriteChars ["u1", "u2"] ("a[SRC2]b".data)) := by
  constructor
  · exact (unresolved_marker_placeholder_c8 ["u1", "u2"] ("a[SRC4]b".data) ['4']
      (by decide) (by decide) ⟨"a".data, "b".data, by decide⟩).1 (by decide)
  · exact (unresolved_marker_placeholder_c8 ["u1", "u2"] ("a[SRC2]b".data) ['2']
      (by decide) (by decide) ⟨"a".data, "b".data, by decide⟩).2
      (by decide) (by decide)

/-- C9: the single search query issued by `retrieve_articles` depends only on
the intent's question: its date range and authors do not affect any search
parameter, and the parameters are exactly the question text (as search text,
embedding input and semantic query), k=50 nearest neighbours on the content
vector, semantic ranking with the default configuration, a cap of 10
results, and the fixed field projection. -/
theorem retrieve_query_independent_c9 (m m' : SearchIntent)
    (hq : m.question = m'.question) :
    retrieveQuery m = retrieveQuery m' ∧
    retrieveQuery m = ⟨m.question, m.question, 50, "content_vector", 10,
      "semantic", "default", m.question,
      ["url", "headline", "publish_date", "content", "authors"]⟩ := by
  constructor
  · simp [retrieveQuery, hq]
  · rfl

/-- C9 (witness): two intents sharing a question but with different date
ranges and authors produce the same query. -/
theorem retrieve_query_independent_c9_witness :
    retrieveQuery ⟨"q", ⟨some "2024-01-01", some "2024-02-01"⟩, ["A", "B"]⟩ =
      retrieveQuery ⟨"q", ⟨none, none⟩, []⟩ ∧
    retrieveQuery ⟨"q", ⟨some "2024-01-01", some "2024-02-01"⟩, ["A", "B"]⟩ =
      ⟨"q", "q", 50, "content_vector", 10, "semantic", "default", "q",
        ["url", "headline", "publish_date", "content", "authors"]⟩ :=
  retrieve_query_independent_c9
    ⟨"q", ⟨some "2024-01-01", some "2024-02-01"⟩, ["A", "B"]⟩
    ⟨"q", ⟨none, none⟩, []⟩ rfl

/-- C10: a marker with leading zeros in its digit group resolves the url by
the decimal value of the digits but renders the original digit string: with
at least one source, `[SRC01]` renders as `[[01]](<url of source 1>)`, and
`[SRC0]` always renders as `[[0]](#)` since no source has index 0. -/
theorem leading_zero_marker_c10 (urls : List String) (l : List Char) :
    (1 ≤ urls.length → markerOf ('0' :: ['1']) <:+: l →
      renderCitation urls ('0' :: ['1']) <:+: rewriteChars urls l ∧
      digitsToNat ('0' :: ['1']) = 1 ∧
      (∃ u, urls.get? 0 = some u ∧ lookupUrl urls 1 = u)) ∧
    (markerOf ['0'] <:+: l →
      renderCitation urls ['0'] <:+: rewriteChars urls l ∧
      digitsToNat ['0'] = 0 ∧ lookupUrl urls 0 = "#") := by
  constructor
  · intro h1 hocc
    refine ⟨renderCitation_occ_rewrite urls l.length l ('0' :: ['1']) le_rfl
      (by decide) (by decide) hocc, by decide, ?_⟩
    have hlt : (0 : Nat) < urls.length := by omega
    obtain ⟨u, hu⟩ : ∃ u, urls.get? 0 = some u := ⟨_, List.get?_eq_get hlt⟩
    refine ⟨u, hu, ?_⟩
    unfold lookupUrl
    rw [if_neg (by omega)]
    rw [show (1 : Nat) - 1 = 0 from rfl, hu]
  · intro hocc
    exact ⟨renderCitation_occ_rewrite urls l.length l ['0'] le_rfl
      (by decide) (by decide) hocc, by decide, rfl⟩

/-- C10 (witness): with one source, `[SRC01]` and `[SRC0]` render as the
claim states. -/
theorem leading_zero_marker_c10_witness :
    (renderCitation ["u"] ('0' :: ['1']) <:+:
        rewriteChars ["u"] ("a[SRC01]b".data) ∧
      digitsToNat ('0' :: ['1']) = 1 ∧
      (∃ u, ["u"].get? 0 = some u ∧ lookupUrl ["u"] 1 = u)) ∧
    (renderCitation ["u"] ['0'] <:+: rewriteChars ["u"] ("a[SRC0]b".data) ∧
      digitsToNat ['0'] = 0 ∧ lookupUrl ["u"] 0 = "#") := by
  constructor
  · exact (leading_zero_marker_c10 ["u"] ("a[SRC01]b".data)).1 (by decide)
      ⟨"a".data, "b".data, by decide⟩
  · exact (leading_zero_marker_c10 ["u"] ("a[SRC0]b".data)).2
      ⟨"a".data, "b".data, by decide⟩

end Dewey
